import Mathlib

/-!
Verification of the RadonServices core components against their
natural-language specification.  Python sources are shallowly embedded:
numpy float arrays become row-major lists of rationals, Python ints become
`Int`/`Nat`, raising code returns `Except`, and external library
primitives (scipy/skimage/numpy random sampling) are passed in as explicit
function parameters so that theorems quantify over their behaviour.
-/

namespace RadonServices

/-- A 2-D image: a row-major list of rows of rational pixel values
(model of a `numpy` 2-D float array). -/
abbrev Image := List (List ℚ)

/-- A 2-D boolean mask, same layout as `Image`; `true` marks a pixel
inside the aperture (the region of interest). -/
abbrev Mask := List (List Bool)

/-! ## Circular error accumulator (`augmentations/src/running_error.py`) -/

/-- State of `RunningErrorCalculator`: a running total of angular error and
a count of recorded samples. -/
structure RunningErrorCalculator where
  total_error : ℚ
  running_count : ℤ
deriving DecidableEq, Repr

/-- `RunningErrorCalculator.update`: raw difference `|expected - actual| % 180`,
folded by `min (d) (180 - d)`; the folded value is added to `total_error` and
`running_count` is incremented.  Returns the new state and the folded error
(the Python method mutates `self` and returns the error). -/
def update (c : RunningErrorCalculator) (expected_rotation actual_rotation : ℤ) :
    RunningErrorCalculator × ℤ :=
  let error : ℤ := |expected_rotation - actual_rotation| % 180
  let error : ℤ := min error (180 - error)
  (⟨c.total_error + (error : ℚ), c.running_count + 1⟩, error)

/-- `RunningErrorCalculator.get_average`: fails when no samples recorded. -/
def get_average (c : RunningErrorCalculator) : Except String ℚ :=
  if c.running_count ≤ 0 then .error "No errors have been recorded"
  else .ok (c.total_error / (c.running_count : ℚ))

/-- `RunningErrorCalculator.merge`: component-wise sum of the two
accumulators (the Python method mutates `self`; modelled as returning the
merged record). -/
def merge (c other : RunningErrorCalculator) : RunningErrorCalculator :=
  ⟨c.total_error + other.total_error, c.running_count + other.running_count⟩

/-! ## Ambient denoiser (`commons/models/denoisers.py`) -/

/-- `image * ~mask`: keep pixels outside the mask, zero the pixels inside. -/
def maskedOutside (image : Image) (mask : Mask) : Image :=
  List.zipWith (fun rowI rowM =>
    List.zipWith (fun p m => if m then 0 else p) rowI rowM) image mask

/-- Total number of pixels of an image (`np.ndarray.size`). -/
def pixelCount (image : Image) : ℕ := (image.map List.length).sum

/-- Sum of all pixels of an image. -/
def pixelSum (image : Image) : ℚ := (image.map List.sum).sum

/-- `np.mean`: sum of all entries divided by the total entry count. -/
def npMean (image : Image) : ℚ := pixelSum image / (pixelCount image : ℚ)

/-- `LowPassDenosier.denoise`: subtracts `np.mean(image * ~mask)` from every
pixel and clamps negative results to zero. -/
def denoise (image : Image) (mask : Mask) : Image :=
  let ambient_noise := npMean (maskedOutside image mask)
  image.map (fun row => row.map (fun p =>
    if p - ambient_noise < 0 then 0 else p - ambient_noise))

/-- Number of pixels strictly outside the mask. -/
def outsideCount (mask : Mask) : ℕ :=
  (mask.map (fun row => (row.filter (fun m => !m)).length)).sum

/-- Modelled from the spec: the ambient noise estimate is "the mean
intensity of pixels *outside* the mask", i.e. the sum of the outside
pixels divided by the number of outside pixels (the code instead divides
by the total pixel count). -/
def outsideMean (image : Image) (mask : Mask) : ℚ :=
  pixelSum (maskedOutside image mask) / (outsideCount mask : ℚ)

/-- Modelled from the spec: `denoise` as the spec words it — subtract the
mean of the pixels outside the mask, then clamp negatives to zero. -/
def denoiseSpec (image : Image) (mask : Mask) : Image :=
  let ambient_noise := outsideMean image mask
  image.map (fun row => row.map (fun p =>
    if p - ambient_noise < 0 then 0 else p - ambient_noise))

/-! ## Radon transform result (`commons/models/radon_transformers.py`) -/

/-- Maximum entry of a list of rationals (`np.ndarray.max` over the
flattened array; meaningful only for non-empty lists, as in numpy). -/
def listMax : List ℚ → ℚ
  | [] => 0
  | a :: rest => rest.foldl max a

/-- `np.ndarray.argmax`: flat row-major index of the first occurrence of
the maximum entry. -/
def argmaxFlat (l : List ℚ) : ℕ :=
  l.findIdx (fun x => decide (x = listMax l))

/-- `shape[1]` of a row-major 2-D array: the length of a row. -/
def shapeCols (s : List (List ℚ)) : ℕ := (s.head?.getD []).length

/-- `RadonTransformResult.get_rotation`:
`offset, rotation = np.unravel_index(sinogram.argmax(), sinogram.shape)`,
returning `rotation`, the column index of the first (row-major) global
maximum cell. -/
def get_rotation (sinogram : List (List ℚ)) : ℕ :=
  argmaxFlat sinogram.flatten % shapeCols sinogram

/-- Concrete sinogram of the shape `transform` builds (40 rows, 181
columns) whose unique global maximum sits in column index 180. -/
def cexSinogram : List (List ℚ) :=
  (List.replicate 180 0 ++ [1]) :: List.replicate 39 (List.replicate 181 0)

/-! ## Bounded worker pool (`commons/utils/parallel_utils.py`)

A worker function that may raise is modelled as `f : α → Option β`
(`none` = the call raised).  The Python threads write to disjoint slots of
the shared result list (proved below), so the pool is modelled by running
the workers in sequence over the shared list. -/

/-- Python `range(start, stop, step)` for a positive step: the interleaved
stride of indices a worker walks. -/
def strideFrom (start stop step : ℕ) : List ℕ :=
  if _h : start < stop ∧ 0 < step then start :: strideFrom (start + step) stop step
  else []
termination_by stop - start
decreasing_by omega

/-- Body of `_run`'s loop for index `i`: `result_list[i] = function(*arg_list[i])`
on success; on an exception the slot is left unchanged. -/
def writeCell (f : α → Option β) (arg_list : List α) (result_list : List (Option β))
    (i : ℕ) : List (Option β) :=
  match arg_list[i]?.bind f with
  | some b => result_list.set i (some b)
  | none => result_list

/-- `_run`: worker `parallel_index` iterates
`range(parallel_index, len(arg_list), parallel_count)` and fills its slots
of the shared result list. -/
def workerRun (f : α → Option β) (arg_list : List α) (result_list : List (Option β))
    (parallel_index parallel_count : ℕ) : List (Option β) :=
  (strideFrom parallel_index arg_list.length parallel_count).foldl
    (writeCell f arg_list) result_list

/-- `run_in_parallel`: the result list starts as `[None] * len(arg_list)`
and workers `0 … thread_count - 1` each fill their stride. -/
def run_in_parallel (f : α → Option β) (arg_list : List α) (thread_count : ℕ) :
    List (Option β) :=
  (List.range thread_count).foldl
    (fun r parallel_index => workerRun f arg_list r parallel_index thread_count)
    (List.replicate arg_list.length none)

/-! ## Script lifecycle host (`commons/orchestration/pipeline.py` with
`AugmentScript.run_batch` of `augment/src/script.py`) -/

/-- Observable state of an `AbstractScript` run: the `_should_stop` flag,
the `iteration` counter, and how many times the execution-complete
callback has been invoked. -/
structure ScriptState where
  shouldStop : Bool
  iteration : ℕ
  completeCalls : ℕ
deriving DecidableEq, Repr

/-- `AugmentScript.run_batch` as seen by the loop: the backlog store is
abstracted to the number of claimable batches left; an empty claim calls
`schedule_stop` (sets the stop flag) and returns, otherwise one batch is
claimed and processed. -/
def run_batch : ℕ → ScriptState → ℕ × ScriptState
  | 0, s => (0, { s with shouldStop := true })
  | b + 1, s => (b, s)

/-- The `while not self._should_stop` loop of `AbstractScript._start`:
each iteration runs a batch, updates the batch status and increments
`iteration`.  `fuel` bounds the iterations so the function is total;
`scriptStart` supplies enough fuel for the loop to reach its exit. -/
def scriptLoop : ℕ → ℕ → ScriptState → ScriptState
  | 0, _, s => s
  | fuel + 1, backlog, s =>
    if s.shouldStop then s
    else
      match run_batch backlog s with
      | (backlog', s') =>
        scriptLoop fuel backlog' { s' with iteration := s'.iteration + 1 }

/-- `AbstractScript._start`: run the loop until the stop flag is observed
at the top of an iteration, then call `_on_complete`, which fires the
execution-complete callback once. -/
def scriptStart (backlog : ℕ) (s : ScriptState) : ScriptState :=
  let final := scriptLoop (backlog + 2) backlog s
  { final with completeCalls := final.completeCalls + 1 }

/-! ## Augmentation engine (`commons/models/augmenters.py`)

The scipy/skimage/numpy sampling primitives are external libraries; they
enter the embedding as function parameters over which the theorems
quantify: `rotateLib` models `ndimage.rotate` (unconstrained),
`poissonLib` models the list of `np.random.poisson` realizations, and
Gaussian blur is modelled as an abstract kernel-weighted sum. -/

/-- `AugmentResult`: the augmented image, the accumulated angle delta and
the provenance tag. -/
structure AugmentResult where
  result_image : Image
  angle_delta : ℕ
  metadata : String
deriving DecidableEq, Repr

/-- `AugmentResult.merge`: keep the latter's image, add the deltas modulo
180, concatenate the tags. -/
def AugmentResult.merge (a other : AugmentResult) : AugmentResult :=
  ⟨other.result_image, (a.angle_delta + other.angle_delta) % 180,
    a.metadata ++ "_" ++ other.metadata⟩

/-- All pixels of an image, row-major. -/
def pixels (img : Image) : List ℚ := img.flatten

/-- Minimum pixel value (`np.min`); 0 for an empty image (numpy raises
there; the augmenters never apply it to an empty image). -/
def imageMin (img : Image) : ℚ :=
  match pixels img with
  | [] => 0
  | p :: ps => ps.foldl min p

/-- Add a scalar to every pixel (`rotated += abs(shift)`). -/
def addScalar (img : Image) (c : ℚ) : Image :=
  img.map (fun row => row.map (fun p => p + c))

/-- Multiply every pixel by a scalar (`brightness_modifier * fits`). -/
def scaleImage (c : ℚ) (img : Image) : Image :=
  img.map (fun row => row.map (fun p => c * p))

/-- Element-wise sum of two images. -/
def imageAdd (a b : Image) : Image :=
  List.zipWith (fun r1 r2 => List.zipWith (fun p q => p + q) r1 r2) a b

/-- Zero image with the shape of `base` (`np.sum` over an empty first
axis yields zeros of the remaining shape). -/
def zeroLike (base : Image) : Image :=
  base.map (fun row => row.map (fun _ => 0))

/-- `np.sum(samples, axis=0)` over the list of sample images. -/
def sumImages (base : Image) (samples : List Image) : Image :=
  samples.foldl imageAdd (zeroLike base)

/-- Element-wise non-negativity of an image. -/
def imageNonneg (img : Image) : Prop := ∀ p ∈ pixels img, 0 ≤ p

/-- `np.all(fits >= 0)` — the asserted precondition of
`_augment_resample`. -/
def imageNonnegB (img : Image) : Bool :=
  (pixels img).all (fun p => decide (0 ≤ p))

/-- `RotationAugmenter._augment_rotate`: rotate through the library call
(`rotateLib fits (360 - angle)` stands for
`ndimage.rotate(fits, 360 - angle, reshape=False)`), then re-floor by the
minimum if a negative interpolation artifact appeared. -/
def augmentRotate (rotateLib : Image → ℕ → Image) (fits : Image) (angle : ℕ) :
    AugmentResult :=
  let rotated := rotateLib fits (360 - angle)
  let shift := imageMin rotated
  let rotated := if shift < 0 then addScalar rotated |shift| else rotated
  ⟨rotated, angle, "R" ++ toString angle⟩

/-- `ResampleAugmenter._augment_resample`: asserts the input is
non-negative, scales brightness by the default modifier 30, draws
`sample_count` Poisson realizations of the scaled image (the draws are
supplied by `poissonLib`) and sums them. -/
def augmentResample (poissonLib : ℕ → Image → List Image) (fits : Image)
    (sample_count : ℕ) : Except String AugmentResult :=
  if imageNonnegB fits then
    let scaled := scaleImage 30 fits
    .ok ⟨sumImages scaled (poissonLib sample_count scaled), 0,
      "S" ++ toString sample_count⟩
  else .error "Fits data must be non-negative"

/-- Pixel access with out-of-range reads as 0. -/
def px (img : Image) (k l : ℕ) : ℚ := ((img[k]?.getD [])[l]?).getD 0

/-- Modelled from the spec: `skimage.filters.gaussian` (the body of
`BlurAugmenter._augment_blur`, an external library call) applies an
isotropic Gaussian smoothing kernel — every output pixel is a weighted sum
of input pixels.  The weight function `w` is abstract; its non-negativity
is the property the spec attributes to a Gaussian kernel. -/
def gaussianBlur (w : ℕ → ℕ → ℕ → ℕ → ℚ) (img : Image) : Image :=
  (List.range img.length).map (fun i =>
    (List.range ((img[i]?.getD []).length)).map (fun j =>
      ((List.range img.length).map (fun k =>
        ((List.range ((img[k]?.getD []).length)).map (fun l =>
          w i j k l * px img k l)).sum)).sum))

/-- `BlurAugmenter._augment_blur`, blur library passed in. -/
def augmentBlur (gaussLib : Image → ℚ → Image) (fits : Image)
    (intensity : ℚ) : AugmentResult :=
  ⟨gaussLib fits intensity, 0, "B" ++ toString intensity⟩

/-- One randomly drawn atomic transform with its random parameter
(`RandomAugmenter.random_augment` draws 1–3 distinct kinds in random
order with random parameters; the drawn composition is made explicit). -/
inductive AugStep where
  | rotate (angle : ℕ)
  | resample (sample_count : ℕ)
  | blur (intensity : ℚ)
deriving DecidableEq, Repr

/-- Which augmenter a step came from (used to state distinctness of the
sampled augmenters). -/
def AugStep.kind : AugStep → ℕ
  | .rotate _ => 0
  | .resample _ => 1
  | .blur _ => 2

/-- `augmenter.random_augment(image)[0]` for one atomic augmenter with its
drawn parameter. -/
def applyStep (rotateLib : Image → ℕ → Image)
    (poissonLib : ℕ → Image → List Image) (gaussLib : Image → ℚ → Image)
    (img : Image) : AugStep → Except String AugmentResult
  | .rotate a => .ok (augmentRotate rotateLib img a)
  | .resample n => augmentResample poissonLib img n
  | .blur c => .ok (augmentBlur gaussLib img c)

/-- The accumulation loop of `RandomAugmenter.random_augment`: the first
selected transform is applied to the original image, each further one to
the previous result image, chained with `AugmentResult.merge`;
`acc = none` models `augment_result = None`. -/
def chainAugment (rotateLib : Image → ℕ → Image)
    (poissonLib : ℕ → Image → List Image) (gaussLib : Image → ℚ → Image)
    (image : Image) : Option AugmentResult → List AugStep →
    Except String (Option AugmentResult)
  | acc, [] => .ok acc
  | none, s :: rest =>
    match applyStep rotateLib poissonLib gaussLib image s with
    | .ok ar => chainAugment rotateLib poissonLib gaussLib image (some ar) rest
    | .error e => .error e
  | some ar, s :: rest =>
    match applyStep rotateLib poissonLib gaussLib ar.result_image s with
    | .ok ar2 =>
      chainAugment rotateLib poissonLib gaussLib image (some (ar.merge ar2)) rest
    | .error e => .error e

/-- Net rotate contribution of a drawn transform: `rotate` contributes its
angle, `resample` and `blur` contribute 0. -/
def stepDelta : AugStep → ℕ
  | .rotate a => a
  | .resample _ => 0
  | .blur _ => 0

/-- Sum of the angles of the rotate transforms of a composition. -/
def rotateSum (steps : List AugStep) : ℕ := (steps.map stepDelta).sum

/-! ## Radon transformer (`commons/models/radon_transformers.py` with the
circle mask of `commons/models/mask_generators.py`) -/

/-- `CircleMaskGenerator.generate` at pixel `(y, x)` of shape `(h, w)`:
inside iff `(x - w//2)² + (y - h//2)² ≤ (h//2)²`. -/
def circleMaskAt (h w y x : ℕ) : Bool :=
  decide (((x : ℤ) - ((w / 2 : ℕ) : ℤ)) ^ 2 + ((y : ℤ) - ((h / 2 : ℕ) : ℤ)) ^ 2 ≤
    (((h / 2 : ℕ) : ℤ)) ^ 2)

/-- `CircleMaskGenerator.apply_mask`: zero every pixel outside the
circular aperture. -/
def apply_mask (image : Image) : Image :=
  image.mapIdx (fun y row => row.mapIdx (fun x p =>
    if circleMaskAt image.length (shapeCols image) y x then p else 0))

/-- `RadonTransformer.transform`: raise unless the image is square, mask
it, then build the `40 × fineness` sinogram column by column.  The
per-angle resampling and column sums (`scipy.ndimage.map_coordinates` on
the projective grid followed by `np.sum(axis=0)`) are floating-point
library work, passed in as `proj`, giving the 40 column sums for angle
index `i`. -/
def transform (proj : ℕ → Image → List ℚ) (raw_image : Image)
    (fineness : ℕ) : Except String (List (List ℚ)) :=
  if raw_image.length ≠ shapeCols raw_image then
    .error "The image must be a square"
  else
    .ok ((List.range 40).map (fun r =>
      (List.range fineness).map (fun i =>
        (proj i (apply_mask raw_image)).getD r 0)))

end RadonServices

namespace RadonServices

/-! ## Theorems for the error accumulator -/

/-- C3: `update` computes `d = |expected - actual| % 180`, folds it to
`min d (180 - d)`, adds exactly the folded value to `total_error`,
increments `running_count` by one and returns the folded value; the
returned value lies in `[0, 90]`, `update x x` returns `0`, and a raw
difference of `90` returns `90`. -/
theorem update_folds_and_accumulates (c : RunningErrorCalculator)
    (expected actual : ℤ) :
    (update c expected actual).2 =
      min (|expected - actual| % 180) (180 - |expected - actual| % 180) ∧
    (update c expected actual).1.total_error =
      c.total_error + ((update c expected actual).2 : ℚ) ∧
    (update c expected actual).1.running_count = c.running_count + 1 ∧
    0 ≤ (update c expected actual).2 ∧ (update c expected actual).2 ≤ 90 ∧
    (update c actual actual).2 = 0 ∧
    (update c expected (expected - 90)).2 = 90 := by
  have h0 : (0 : ℤ) ≤ |expected - actual| % 180 :=
    Int.emod_nonneg _ (by norm_num)
  have h179 : |expected - actual| % 180 < 180 :=
    Int.emod_lt_of_pos _ (by norm_num)
  refine ⟨rfl, rfl, rfl, ?_, ?_, ?_, ?_⟩
  · simp only [update]
    rw [min_def]
    split <;> omega
  · simp only [update]
    rw [min_def]
    split <;> omega
  · simp [update]
  · simp [update]

/-- C5: `merge` sums `total_error` and `running_count`, and this
combination is associative and commutative. -/
theorem merge_assoc_comm (A B C : RunningErrorCalculator) :
    merge A B = ⟨A.total_error + B.total_error,
                 A.running_count + B.running_count⟩ ∧
    merge (merge A B) C = merge A (merge B C) ∧
    merge A B = merge B A := by
  refine ⟨rfl, ?_, ?_⟩
  · simp [merge, add_assoc]
  · simp [merge, add_comm]

/-! ## Theorems for the denoiser -/

/-- C2 (code evaluated at the failing input): on `image = [[4,0],[0,0]]`
with `mask = [[false,true],[true,true]]` (exactly one pixel outside the
mask, of value 4), the code divides the outside sum by the total pixel
count (ambient = 4/4 = 1) and returns `[[3,0],[0,0]]`, while the
spec's "mean intensity of the pixels outside the mask" (ambient = 4/1 = 4)
would return `[[0,0],[0,0]]`. -/
theorem denoise_divides_by_total_count :
    denoise [[4, 0], [0, 0]] [[false, true], [true, true]] = [[3, 0], [0, 0]] ∧
    denoiseSpec [[4, 0], [0, 0]] [[false, true], [true, true]] = [[0, 0], [0, 0]] ∧
    denoise [[4, 0], [0, 0]] [[false, true], [true, true]] ≠
      denoiseSpec [[4, 0], [0, 0]] [[false, true], [true, true]] := by
  norm_num [denoise, denoiseSpec, npMean, outsideMean, maskedOutside,
    pixelSum, pixelCount, outsideCount, List.filter]

/-! ## Theorems for the sinogram argmax reduction -/

theorem left_le_foldl_max (l : List ℚ) : ∀ a : ℚ, a ≤ l.foldl max a := by
  induction l with
  | nil => intro a; exact le_refl a
  | cons b t ih =>
    intro a
    exact le_trans (le_max_left a b) (ih (max a b))

theorem le_foldl_max_of_mem (l : List ℚ) :
    ∀ (a q : ℚ), q ∈ l → q ≤ l.foldl max a := by
  induction l with
  | nil => intro a q hq; simp at hq
  | cons b t ih =>
    intro a q hq
    rcases List.mem_cons.1 hq with h | h
    · subst h
      exact le_trans (le_max_right a q) (left_le_foldl_max t (max a q))
    · exact ih (max a b) q h

theorem foldl_max_mem (l : List ℚ) :
    ∀ a : ℚ, l.foldl max a = a ∨ l.foldl max a ∈ l := by
  induction l with
  | nil => intro a; exact Or.inl rfl
  | cons b t ih =>
    intro a
    rcases ih (max a b) with h | h
    · rcases max_choice a b with hm | hm
      · exact Or.inl (h.trans hm)
      · exact Or.inr (List.mem_cons.2 (Or.inl (h.trans hm)))
    · exact Or.inr (List.mem_cons.2 (Or.inr h))

theorem le_listMax {l : List ℚ} {q : ℚ} (hq : q ∈ l) : q ≤ listMax l := by
  cases l with
  | nil => simp at hq
  | cons a rest =>
    rcases List.mem_cons.1 hq with h | h
    · subst h; exact left_le_foldl_max rest q
    · exact le_foldl_max_of_mem rest a q h

theorem listMax_mem {l : List ℚ} (hl : l ≠ []) : listMax l ∈ l := by
  cases l with
  | nil => exact absurd rfl hl
  | cons a rest =>
    rcases foldl_max_mem rest a with h | h
    · exact List.mem_cons.2 (Or.inl h)
    · exact List.mem_cons.2 (Or.inr h)

/-- C1 (amended): for every sinogram of the shape `transform` builds
(40 rows, 181 columns), `get_rotation` returns the column index of the
first row-major global maximum cell, an integer in `[0, 181)` — the code
does not guarantee a value strictly below 180, only below the 181 columns
of the sinogram. -/
theorem get_rotation_first_argmax_lt_181 (s : List (List ℚ))
    (h40 : s.length = 40) (h181 : ∀ r ∈ s, r.length = 181) :
    get_rotation s < 181 ∧
    get_rotation s = argmaxFlat s.flatten % 181 ∧
    argmaxFlat s.flatten < s.flatten.length ∧
    (∀ q ∈ s.flatten, q ≤ s.flatten.getD (argmaxFlat s.flatten) 0) ∧
    (∀ j, j < argmaxFlat s.flatten →
      s.flatten.getD j 0 ≠ s.flatten.getD (argmaxFlat s.flatten) 0) := by
  cases s with
  | nil => simp at h40
  | cons r rest =>
    have hr : r.length = 181 := h181 r (List.mem_cons_self r rest)
    have hcols : shapeCols (r :: rest) = 181 := by
      simp [shapeCols, hr]
    have hflat : r ++ rest.flatten = (r :: rest).flatten := by
      simp [List.flatten_cons]
    have hne : (r :: rest).flatten ≠ [] := by
      intro h
      have : ((r :: rest).flatten).length = 0 := by rw [h]; rfl
      rw [← hflat] at this
      simp [hr] at this
    have hmax : listMax ((r :: rest).flatten) ∈ (r :: rest).flatten :=
      listMax_mem hne
    have hex : ∃ x ∈ (r :: rest).flatten,
        (fun x => decide (x = listMax ((r :: rest).flatten))) x = true :=
      ⟨listMax ((r :: rest).flatten), hmax, by simp⟩
    have hidx : argmaxFlat ((r :: rest).flatten) < ((r :: rest).flatten).length :=
      List.findIdx_lt_length_of_exists hex
    have hsome := List.getElem?_eq_getElem hidx
    have hval := List.findIdx_of_getElem?_eq_some hsome
    simp only [decide_eq_true_eq] at hval
    have hgetD : ((r :: rest).flatten).getD (argmaxFlat ((r :: rest).flatten)) 0 =
        listMax ((r :: rest).flatten) := by
      rw [List.getD_eq_getElem?_getD, hsome, Option.getD_some]
      exact hval
    refine ⟨?_, ?_, hidx, ?_, ?_⟩
    · unfold get_rotation
      rw [hcols]
      exact Nat.mod_lt _ (by norm_num)
    · unfold get_rotation
      rw [hcols]
    · intro q hq
      rw [hgetD]
      exact le_listMax hq
    · intro j hj
      have hjlt : j < ((r :: rest).flatten).length := lt_trans hj hidx
      have hfalse := List.not_of_lt_findIdx hj
      simp only [decide_eq_false_iff_not] at hfalse
      rw [List.getD_eq_getElem?_getD, List.getElem?_eq_getElem hjlt, Option.getD_some, hgetD]
      exact hfalse

/-- Witness for C1 (amended) at the all-zero 40×181 sinogram. -/
theorem get_rotation_first_argmax_lt_181_witness :
    get_rotation (List.replicate 40 (List.replicate 181 (0 : ℚ))) < 181 :=
  (get_rotation_first_argmax_lt_181
    (List.replicate 40 (List.replicate 181 (0 : ℚ)))
    (by rw [List.length_replicate])
    (fun r hr => by rw [List.eq_of_mem_replicate hr, List.length_replicate])).1

theorem argmax_cexSinogram : argmaxFlat cexSinogram.flatten = 180 := by
  have hflat : cexSinogram.flatten =
      List.replicate 180 (0 : ℚ) ++ (1 :: List.replicate (39 * 181) (0 : ℚ)) := by
    unfold cexSinogram
    rw [List.flatten_cons, List.flatten_replicate_replicate, List.append_assoc,
      List.singleton_append]
  have h1mem : (1 : ℚ) ∈ cexSinogram.flatten := by
    rw [hflat]
    exact List.mem_append_right _ (List.mem_cons_self _ _)
  have hvals : ∀ q ∈ cexSinogram.flatten, q = 0 ∨ q = 1 := by
    intro q hq
    rw [hflat] at hq
    rcases List.mem_append.1 hq with h | h
    · exact Or.inl (List.eq_of_mem_replicate h)
    · rcases List.mem_cons.1 h with h | h
      · exact Or.inr h
      · exact Or.inl (List.eq_of_mem_replicate h)
  have hne : cexSinogram.flatten ≠ [] := by
    intro h
    rw [h] at h1mem
    exact absurd h1mem (List.not_mem_nil _)
  have hmaxval : listMax cexSinogram.flatten = 1 := by
    have hmem := listMax_mem hne
    have hle : (1 : ℚ) ≤ listMax cexSinogram.flatten := le_listMax h1mem
    rcases hvals _ hmem with h | h
    · rw [h] at hle; norm_num at hle
    · exact h
  unfold argmaxFlat
  rw [hmaxval, hflat, List.findIdx_append]
  have hrep : (List.replicate 180 (0 : ℚ)).findIdx (fun x => decide (x = 1)) = 180 := by
    have hfalse : ∀ x ∈ List.replicate 180 (0 : ℚ),
        (fun q : ℚ => decide (q = 1)) x = false := by
      intro x hx
      rw [List.eq_of_mem_replicate hx]
      norm_num
    have hlen := List.findIdx_eq_length_of_false hfalse
    rw [List.length_replicate] at hlen
    exact hlen
  rw [hrep, List.length_replicate, if_neg (lt_irrefl 180), List.findIdx_cons]
  rfl

/-- C1 (counterexample): the claim "the best angle is always strictly less
than 180" is false — `cexSinogram` has the shape produced by `transform`
(40 rows, 181 columns) and `get_rotation` returns 180 on it. -/
theorem get_rotation_not_always_lt_180 :
    ¬ (∀ s : List (List ℚ), s.length = 40 → (∀ r ∈ s, r.length = 181) →
        get_rotation s < 180) := by
  intro h
  have hrows : ∀ r ∈ cexSinogram, r.length = 181 := by
    intro r hr
    rcases List.mem_cons.1 hr with h' | h'
    · subst h'
      rw [List.length_append, List.length_replicate]
      rfl
    · rw [List.eq_of_mem_replicate h', List.length_replicate]
  have hlen : cexSinogram.length = 40 := by
    unfold cexSinogram
    rw [List.length_cons, List.length_replicate]
  have hdef : ∀ s : List (List ℚ), get_rotation s = argmaxFlat s.flatten % shapeCols s :=
    fun _ => rfl
  have h180 : get_rotation cexSinogram = 180 := by
    rw [hdef, argmax_cexSinogram]
    have hc : shapeCols cexSinogram = 181 := by
      unfold cexSinogram shapeCols
      rw [List.head?_cons, Option.getD_some, List.length_append, List.length_replicate]
      rfl
    rw [hc]
  have := h cexSinogram hlen hrows
  omega

/-! ## Theorems for the bounded worker pool -/

theorem mem_strideFrom_aux {step : ℕ} (hstep : 0 < step) :
    ∀ (n stop start i : ℕ), stop - start ≤ n →
      (i ∈ strideFrom start stop step ↔
        start ≤ i ∧ i < stop ∧ (i - start) % step = 0) := by
  intro n
  induction n with
  | zero =>
    intro stop start i hle
    rw [strideFrom, dif_neg (by omega)]
    simp only [List.not_mem_nil, false_iff]
    rintro ⟨h1, h2, -⟩
    omega
  | succ n ih =>
    intro stop start i hle
    by_cases hss : start < stop
    · rw [strideFrom, dif_pos ⟨hss, hstep⟩, List.mem_cons,
        ih stop (start + step) i (by omega)]
      constructor
      · rintro (rfl | ⟨h1, h2, h3⟩)
        · exact ⟨le_refl _, hss, by simp⟩
        · refine ⟨by omega, h2, ?_⟩
          have heq : i - start = (i - (start + step)) + step := by omega
          rw [heq, Nat.add_mod_right]
          exact h3
      · rintro ⟨h1, h2, h3⟩
        rcases eq_or_lt_of_le h1 with rfl | hlt
        · exact Or.inl rfl
        · right
          have hd : step ∣ (i - start) := Nat.dvd_of_mod_eq_zero h3
          have hstep_le : start + step ≤ i := by
            have := Nat.le_of_dvd (by omega) hd
            omega
          refine ⟨hstep_le, h2, ?_⟩
          have heq : i - (start + step) = (i - start) - step := by omega
          rw [heq]
          obtain ⟨m, hm⟩ := hd
          have hm1 : 1 ≤ m := by
            rcases Nat.eq_zero_or_pos m with rfl | hm1
            · omega
            · exact hm1
          have heq2 : i - start - step = step * (m - 1) := by
            have : step * m = step * (m - 1) + step := by
              conv_lhs => rw [show m = (m - 1) + 1 by omega]
              ring
            omega
          rw [heq2]
          exact Nat.mul_mod_right step _
    · rw [strideFrom, dif_neg (by omega)]
      simp only [List.not_mem_nil, false_iff]
      rintro ⟨h1, h2, -⟩
      omega

theorem mem_strideFrom {step : ℕ} (hstep : 0 < step) (stop start i : ℕ) :
    i ∈ strideFrom start stop step ↔
      start ≤ i ∧ i < stop ∧ (i - start) % step = 0 :=
  mem_strideFrom_aux hstep stop stop start i (Nat.sub_le _ _)

theorem mem_strideFrom_iff_mod {t k n i : ℕ} (hk : k < t) :
    i ∈ strideFrom k n t ↔ i < n ∧ i % t = k := by
  rw [mem_strideFrom (by omega)]
  constructor
  · rintro ⟨h1, h2, h3⟩
    refine ⟨h2, ?_⟩
    obtain ⟨m, hm⟩ := Nat.dvd_of_mod_eq_zero h3
    have heq : i = k + t * m := by omega
    rw [heq, Nat.add_mul_mod_self_left]
    exact Nat.mod_eq_of_lt hk
  · rintro ⟨h1, h2⟩
    have hk_le : k ≤ i := h2 ▸ Nat.mod_le i t
    refine ⟨hk_le, h1, ?_⟩
    have heq : i - k = t * (i / t) := by
      have := Nat.div_add_mod i t
      omega
    rw [heq]
    exact Nat.mul_mod_right t _

theorem writeCell_length (f : α → Option β) (args : List α)
    (r : List (Option β)) (i : ℕ) : (writeCell f args r i).length = r.length := by
  unfold writeCell
  cases args[i]?.bind f with
  | none => rfl
  | some b => exact List.length_set r i (some b)

theorem writeCell_getElem_ne (f : α → Option β) (args : List α)
    (r : List (Option β)) (i j : ℕ) (hne : j ≠ i) :
    (writeCell f args r i)[j]? = r[j]? := by
  unfold writeCell
  cases args[i]?.bind f with
  | none => rfl
  | some b => exact List.getElem?_set_ne (Ne.symm hne)

theorem writeCell_self (f : α → Option β) (args : List α) (r : List (Option β))
    {i : ℕ} (hia : i < args.length) (hir : i < r.length)
    (h : r[i]? = (args[i]?).map f ∨ r[i]? = some none) :
    (writeCell f args r i)[i]? = (args[i]?).map f := by
  have ha : args[i]? = some (args.get ⟨i, hia⟩) := by
    rw [List.get_eq_getElem]
    exact List.getElem?_eq_getElem hia
  cases hfa : f (args.get ⟨i, hia⟩) with
  | some b =>
    have hb : args[i]?.bind f = some b := by rw [ha, Option.some_bind, hfa]
    unfold writeCell
    rw [hb, List.getElem?_set_self hir, ha, Option.map_some', hfa]
  | none =>
    have hb : args[i]?.bind f = none := by rw [ha, Option.some_bind, hfa]
    unfold writeCell
    rw [hb, ha, Option.map_some', hfa]
    rcases h with h | h
    · rw [h, ha, Option.map_some', hfa]
    · exact h

theorem foldl_writeCell_length (f : α → Option β) (args : List α) :
    ∀ (l : List ℕ) (r : List (Option β)),
      (l.foldl (writeCell f args) r).length = r.length := by
  intro l
  induction l with
  | nil => intro r; rfl
  | cons j l ih =>
    intro r
    rw [List.foldl_cons, ih, writeCell_length]

theorem foldl_writeCell_not_mem (f : α → Option β) (args : List α) :
    ∀ (l : List ℕ) (r : List (Option β)) (i : ℕ), i ∉ l →
      (l.foldl (writeCell f args) r)[i]? = r[i]? := by
  intro l
  induction l with
  | nil => intro r i _; rfl
  | cons j l ih =>
    intro r i hmem
    rw [List.foldl_cons, ih _ _ (fun h => hmem (List.mem_cons.2 (Or.inr h))),
      writeCell_getElem_ne]
    intro h
    exact hmem (h ▸ List.mem_cons.2 (Or.inl rfl))

theorem foldl_writeCell_target (f : α → Option β) (args : List α) :
    ∀ (l : List ℕ) (r : List (Option β)) (i : ℕ),
      i < args.length → i < r.length →
      ((r[i]? = some none ∧ i ∈ l) ∨ r[i]? = (args[i]?).map f) →
      (l.foldl (writeCell f args) r)[i]? = (args[i]?).map f := by
  intro l
  induction l with
  | nil =>
    rintro r i hia hir (⟨-, hmem⟩ | h)
    · exact absurd hmem (List.not_mem_nil i)
    · exact h
  | cons j l ih =>
    rintro r i hia hir (⟨hcell, hmem⟩ | h)
    · by_cases hij : i = j
      · subst hij
        refine ih _ i hia (by rw [writeCell_length]; exact hir) (Or.inr ?_)
        exact writeCell_self f args r hia hir (Or.inr hcell)
      · rcases List.mem_cons.1 hmem with hj | hmem'
        · exact absurd hj hij
        · refine ih _ i hia (by rw [writeCell_length]; exact hir) (Or.inl ⟨?_, hmem'⟩)
          rw [writeCell_getElem_ne f args r j i hij]
          exact hcell
    · by_cases hij : i = j
      · subst hij
        refine ih _ i hia (by rw [writeCell_length]; exact hir) (Or.inr ?_)
        exact writeCell_self f args r hia hir (Or.inl h)
      · refine ih _ i hia (by rw [writeCell_length]; exact hir) (Or.inr ?_)
        rw [writeCell_getElem_ne f args r j i hij]
        exact h

theorem workerRun_length (f : α → Option β) (args : List α)
    (r : List (Option β)) (k t : ℕ) : (workerRun f args r k t).length = r.length :=
  foldl_writeCell_length f args _ r

theorem run_in_parallel_cell (f : α → Option β) (args : List α) (t : ℕ)
    (ht : 0 < t) (i : ℕ) (hi : i < args.length) :
    (run_in_parallel f args t)[i]? = (args[i]?).map f := by
  suffices H : ∀ (ws : List ℕ) (r : List (Option β)), (∀ k ∈ ws, k < t) →
      r.length = args.length →
      ((r[i]? = some none ∧ i % t ∈ ws) ∨ r[i]? = (args[i]?).map f) →
      (ws.foldl (fun r k => workerRun f args r k t) r)[i]? = (args[i]?).map f by
    refine H (List.range t) (List.replicate args.length none)
      (fun k hk => List.mem_range.1 hk) (List.length_replicate _ _)
      (Or.inl ⟨?_, List.mem_range.2 (Nat.mod_lt i ht)⟩)
    exact List.getElem?_replicate_of_lt hi
  intro ws
  induction ws with
  | nil =>
    rintro r _ hlen (⟨-, hmem⟩ | h)
    · exact absurd hmem (List.not_mem_nil _)
    · exact h
  | cons k ws ih =>
    rintro r hws hlen (⟨hcell, hmem⟩ | h)
    · by_cases hk : i % t = k
      · subst hk
        refine ih _ (fun k hk => hws k (List.mem_cons.2 (Or.inr hk)))
          (by rw [workerRun_length]; exact hlen) (Or.inr ?_)
        apply foldl_writeCell_target f args _ r i hi (hlen ▸ hi)
        exact Or.inl ⟨hcell, (mem_strideFrom_iff_mod
          (hws _ (List.mem_cons.2 (Or.inl rfl)))).2 ⟨hi, rfl⟩⟩
      · refine ih _ (fun k hk => hws k (List.mem_cons.2 (Or.inr hk)))
          (by rw [workerRun_length]; exact hlen) (Or.inl ⟨?_, ?_⟩)
        · unfold workerRun
          rw [foldl_writeCell_not_mem]
          · exact hcell
          · intro hmem'
            exact hk ((mem_strideFrom_iff_mod
              (hws _ (List.mem_cons.2 (Or.inl rfl)))).1 hmem').2
        · rcases List.mem_cons.1 hmem with hc | hc
          · exact absurd hc hk
          · exact hc
    · refine ih _ (fun k hk => hws k (List.mem_cons.2 (Or.inr hk)))
        (by rw [workerRun_length]; exact hlen) (Or.inr ?_)
      apply foldl_writeCell_target f args _ r i hi (hlen ▸ hi)
      exact Or.inr h

theorem run_in_parallel_length (f : α → Option β) (args : List α) (t : ℕ) :
    (run_in_parallel f args t).length = args.length := by
  unfold run_in_parallel
  suffices H : ∀ (ws : List ℕ) (r : List (Option β)),
      (ws.foldl (fun r k => workerRun f args r k t) r).length = r.length by
    rw [H, List.length_replicate]
  intro ws
  induction ws with
  | nil => intro r; rfl
  | cons k ws ih =>
    intro r
    rw [List.foldl_cons, ih, workerRun_length]

/-- C6: `run_in_parallel` is order-preserving and its work partition is a
disjoint interleaved stride: the result has the length of the argument
list, slot `i` holds the value of the function at argument `i`, worker `k`
walks exactly the indices congruent to `k` modulo the thread count, and
every index below the length belongs to exactly one worker's stride. -/
theorem run_in_parallel_order_preserving_stride (f : α → Option β)
    (args : List α) (t : ℕ) (ht : 1 ≤ t) :
    (run_in_parallel f args t).length = args.length ∧
    (∀ (i : ℕ) (a : α), args[i]? = some a →
      (run_in_parallel f args t)[i]? = some (f a)) ∧
    (∀ k, k < t → ∀ i, i ∈ strideFrom k args.length t ↔
      (i < args.length ∧ i % t = k)) ∧
    (∀ i, i < args.length →
      ∃! k, k < t ∧ i ∈ strideFrom k args.length t) := by
  refine ⟨run_in_parallel_length f args t, ?_, ?_, ?_⟩
  · intro i a ha
    obtain ⟨hi, -⟩ := List.getElem?_eq_some.1 ha
    rw [run_in_parallel_cell f args t ht i hi, ha, Option.map_some']
  · intro k hk i
    exact mem_strideFrom_iff_mod hk
  · intro i hi
    refine ⟨i % t, ⟨Nat.mod_lt i ht, (mem_strideFrom_iff_mod (Nat.mod_lt i ht)).2
      ⟨hi, rfl⟩⟩, ?_⟩
    rintro k ⟨hk, hmem⟩
    exact ((mem_strideFrom_iff_mod hk).1 hmem).2.symm

/-- Witness for C6 at `f n = n + 1`, three arguments, two workers. -/
theorem run_in_parallel_order_preserving_stride_witness :
    (run_in_parallel (fun n : ℕ => some (n + 1)) [10, 20, 30] 2).length = 3 ∧
    (run_in_parallel (fun n : ℕ => some (n + 1)) [10, 20, 30] 2)[1]? =
      some (some 21) := by
  have h := run_in_parallel_order_preserving_stride
    (fun n : ℕ => some (n + 1)) [10, 20, 30] 2 (by norm_num)
  exact ⟨h.1, h.2.1 1 20 rfl⟩

/-- C7: when the function raises on item `i` (modelled as `f a = none`),
the worker catches it and slot `i` keeps its `None` marker, while every
other item's result is still computed and stored unchanged. -/
theorem run_in_parallel_failure_isolated (f : α → Option β) (args : List α)
    (t i : ℕ) (ht : 1 ≤ t) (a : α) (ha : args[i]? = some a)
    (hfail : f a = none) :
    (run_in_parallel f args t)[i]? = some none ∧
    (∀ (j : ℕ) (b : α), j ≠ i → args[j]? = some b →
      (run_in_parallel f args t)[j]? = some (f b)) := by
  obtain ⟨hi, -⟩ := List.getElem?_eq_some.1 ha
  constructor
  · rw [run_in_parallel_cell f args t ht i hi, ha, Option.map_some', hfail]
  · intro j b _ hb
    obtain ⟨hj, -⟩ := List.getElem?_eq_some.1 hb
    rw [run_in_parallel_cell f args t ht j hj, hb, Option.map_some']

/-- Witness for C7: the middle of three items fails; its slot is `None`
and its siblings are computed. -/
theorem run_in_parallel_failure_isolated_witness :
    (run_in_parallel (fun n : ℕ => if n = 20 then none else some (n + 1))
      [10, 20, 30] 2)[1]? = some none ∧
    (run_in_parallel (fun n : ℕ => if n = 20 then none else some (n + 1))
      [10, 20, 30] 2)[2]? = some (some 31) := by
  have h := run_in_parallel_failure_isolated
    (fun n : ℕ => if n = 20 then none else some (n + 1)) [10, 20, 30] 2 1
    (by norm_num) 20 rfl (by norm_num)
  exact ⟨h.1, h.2 2 30 (by norm_num) rfl⟩

/-! ## Theorems for the script lifecycle host -/

theorem scriptLoop_completeCalls :
    ∀ (fuel backlog : ℕ) (s : ScriptState),
      (scriptLoop fuel backlog s).completeCalls = s.completeCalls := by
  intro fuel
  induction fuel with
  | zero => intro backlog s; rfl
  | succ fuel ih =>
    intro backlog s
    rw [scriptLoop]
    split
    · rfl
    · cases backlog with
      | zero => rw [show run_batch 0 s = (0, { s with shouldStop := true }) from rfl, ih]
      | succ b => rw [show run_batch (b + 1) s = (b, s) from rfl, ih]

theorem scriptLoop_run (backlog : ℕ) :
    ∀ s : ScriptState, s.shouldStop = false →
      scriptLoop (backlog + 2) backlog s =
        ⟨true, s.iteration + backlog + 1, s.completeCalls⟩ := by
  induction backlog with
  | zero =>
    intro s hs
    show scriptLoop (1 + 1) 0 s = _
    rw [scriptLoop, if_neg (by rw [hs]; exact Bool.false_ne_true)]
    show scriptLoop (0 + 1) 0
      { s with shouldStop := true, iteration := s.iteration + 1 } = _
    rw [scriptLoop, if_pos rfl]
  | succ b ih =>
    intro s hs
    show scriptLoop (b + 2 + 1) (b + 1) s = _
    rw [scriptLoop, if_neg (by rw [hs]; exact Bool.false_ne_true)]
    show scriptLoop (b + 2) b { s with iteration := s.iteration + 1 } = _
    rw [ih { s with iteration := s.iteration + 1 } hs]
    show ScriptState.mk true (s.iteration + 1 + b + 1) s.completeCalls = _
    rw [show s.iteration + 1 + b + 1 = s.iteration + (b + 1) + 1 by omega]

/-- C8: when the batch step reports no more work, the loop transitions to
stopping and exits at the next top-of-loop check of the stop flag (so a
fresh run over a backlog of `backlog` batches performs `backlog + 1`
iterations), the completion callback never fires while the loop is
running, and `_start` fires it exactly once after the loop exits. -/
theorem script_empty_claim_stops_and_fires_once (backlog : ℕ) :
    (scriptLoop (backlog + 2) backlog ⟨false, 0, 0⟩).completeCalls = 0 ∧
    (scriptLoop (backlog + 2) backlog ⟨false, 0, 0⟩).shouldStop = true ∧
    (scriptLoop (backlog + 2) backlog ⟨false, 0, 0⟩).iteration = backlog + 1 ∧
    (scriptStart backlog ⟨false, 0, 0⟩).completeCalls = 1 := by
  have h := scriptLoop_run backlog ⟨false, 0, 0⟩ rfl
  refine ⟨?_, ?_, ?_, ?_⟩
  · rw [h]
  · rw [h]
  · rw [h]
    show (0 : ℕ) + backlog + 1 = backlog + 1
    omega
  · show (scriptLoop (backlog + 2) backlog ⟨false, 0, 0⟩).completeCalls + 1 = 1
    rw [h]

/-! ## Theorems for the augmentation engine -/

theorem foldl_min_le_left (l : List ℚ) : ∀ a : ℚ, l.foldl min a ≤ a := by
  induction l with
  | nil => intro a; exact le_refl a
  | cons b t ih =>
    intro a
    exact le_trans (ih (min a b)) (min_le_left a b)

theorem foldl_min_le_of_mem (l : List ℚ) :
    ∀ (a q : ℚ), q ∈ l → l.foldl min a ≤ q := by
  induction l with
  | nil => intro a q hq; simp at hq
  | cons b t ih =>
    intro a q hq
    rcases List.mem_cons.1 hq with h | h
    · subst h
      exact le_trans (foldl_min_le_left t (min a q)) (min_le_right a q)
    · exact ih (min a b) q h

theorem imageMin_le {img : Image} {p : ℚ} (hp : p ∈ pixels img) :
    imageMin img ≤ p := by
  unfold imageMin
  cases hpx : pixels img with
  | nil => rw [hpx] at hp; exact absurd hp (List.not_mem_nil p)
  | cons a ps =>
    rw [hpx] at hp
    rcases List.mem_cons.1 hp with h | h
    · subst h; exact foldl_min_le_left ps p
    · exact foldl_min_le_of_mem ps a p h

theorem flatten_map_map (f : ℚ → ℚ) (img : Image) :
    (img.map (fun row => row.map f)).flatten = img.flatten.map f := by
  induction img with
  | nil => rfl
  | cons r rest ih =>
    simp only [List.map_cons, List.flatten_cons, List.map_append, ih]

theorem pixels_addScalar (img : Image) (c : ℚ) :
    pixels (addScalar img c) = (pixels img).map (fun p => p + c) :=
  flatten_map_map (fun p => p + c) img

theorem pixels_scaleImage (c : ℚ) (img : Image) :
    pixels (scaleImage c img) = (pixels img).map (fun p => c * p) :=
  flatten_map_map (fun p => c * p) img

theorem pixels_zeroLike (base : Image) :
    pixels (zeroLike base) = (pixels base).map (fun _ => 0) :=
  flatten_map_map (fun _ => 0) base

/-- The re-floor step of `_augment_rotate` makes the result non-negative
no matter what the interpolation produced. -/
theorem augmentRotate_nonneg (rotateLib : Image → ℕ → Image) (fits : Image)
    (angle : ℕ) : imageNonneg (augmentRotate rotateLib fits angle).result_image := by
  show imageNonneg (if imageMin (rotateLib fits (360 - angle)) < 0 then
    addScalar (rotateLib fits (360 - angle)) |imageMin (rotateLib fits (360 - angle))|
    else rotateLib fits (360 - angle))
  by_cases h : imageMin (rotateLib fits (360 - angle)) < 0
  · rw [if_pos h]
    intro p hp
    rw [pixels_addScalar] at hp
    obtain ⟨q, hq, rfl⟩ := List.mem_map.1 hp
    have h1 := imageMin_le hq
    rw [abs_of_neg h]
    linarith
  · rw [if_neg h]
    intro p hp
    have h1 := imageMin_le hp
    have h2 := not_lt.1 h
    linarith

theorem zipWith_add_nonneg :
    ∀ (l₁ l₂ : List ℚ), (∀ p ∈ l₁, 0 ≤ p) → (∀ p ∈ l₂, 0 ≤ p) →
      ∀ p ∈ List.zipWith (fun p q => p + q) l₁ l₂, 0 ≤ p := by
  intro l₁
  induction l₁ with
  | nil => intro l₂ _ _ p hp; simp at hp
  | cons a t ih =>
    intro l₂ h1 h2 p hp
    cases l₂ with
    | nil => simp at hp
    | cons b t2 =>
      rw [List.zipWith_cons_cons] at hp
      rcases List.mem_cons.1 hp with rfl | hp'
      · have ha := h1 a (List.mem_cons_self _ _)
        have hb := h2 b (List.mem_cons_self _ _)
        linarith
      · exact ih t2 (fun p hp => h1 p (List.mem_cons.2 (Or.inr hp)))
          (fun p hp => h2 p (List.mem_cons.2 (Or.inr hp))) p hp'

theorem mem_imageAdd_rows :
    ∀ (a b : Image) (row : List ℚ), row ∈ imageAdd a b →
      ∃ r1 r2, r1 ∈ a ∧ r2 ∈ b ∧ row = List.zipWith (fun p q => p + q) r1 r2 := by
  intro a
  induction a with
  | nil => intro b row h; simp [imageAdd] at h
  | cons r t ih =>
    intro b row h
    cases b with
    | nil => simp [imageAdd] at h
    | cons r2 t2 =>
      rw [imageAdd, List.zipWith_cons_cons] at h
      rcases List.mem_cons.1 h with rfl | h'
      · exact ⟨r, r2, List.mem_cons_self _ _, List.mem_cons_self _ _, rfl⟩
      · obtain ⟨r1, r2', h1, h2, h3⟩ := ih t2 row h'
        exact ⟨r1, r2', List.mem_cons.2 (Or.inr h1), List.mem_cons.2 (Or.inr h2), h3⟩

theorem imageAdd_nonneg {a b : Image} (ha : imageNonneg a) (hb : imageNonneg b) :
    imageNonneg (imageAdd a b) := by
  intro p hp
  obtain ⟨row, hrow, hprow⟩ := List.mem_flatten.1 hp
  obtain ⟨r1, r2, h1, h2, rfl⟩ := mem_imageAdd_rows a b row hrow
  exact zipWith_add_nonneg r1 r2
    (fun q hq => ha q (List.mem_flatten.2 ⟨r1, h1, hq⟩))
    (fun q hq => hb q (List.mem_flatten.2 ⟨r2, h2, hq⟩)) p hprow

theorem zeroLike_nonneg (base : Image) : imageNonneg (zeroLike base) := by
  intro p hp
  rw [pixels_zeroLike] at hp
  obtain ⟨q, -, rfl⟩ := List.mem_map.1 hp
  exact le_refl 0

theorem sumImages_nonneg (base : Image) (samples : List Image)
    (hs : ∀ d ∈ samples, imageNonneg d) : imageNonneg (sumImages base samples) := by
  unfold sumImages
  suffices H : ∀ (l : List Image) (acc : Image), imageNonneg acc →
      (∀ d ∈ l, imageNonneg d) → imageNonneg (l.foldl imageAdd acc) from
    H samples (zeroLike base) (zeroLike_nonneg base) hs
  intro l
  induction l with
  | nil => intro acc hacc _; exact hacc
  | cons d t ih =>
    intro acc hacc hl
    rw [List.foldl_cons]
    exact ih _ (imageAdd_nonneg hacc (hl d (List.mem_cons_self _ _)))
      (fun e he => hl e (List.mem_cons.2 (Or.inr he)))

theorem imageNonnegB_eq_true {img : Image} :
    imageNonnegB img = true ↔ imageNonneg img := by
  unfold imageNonnegB imageNonneg
  simp only [List.all_eq_true, decide_eq_true_eq]

theorem scaleImage_nonneg {img : Image} (himg : imageNonneg img) {c : ℚ}
    (hc : 0 ≤ c) : imageNonneg (scaleImage c img) := by
  intro p hp
  rw [pixels_scaleImage] at hp
  obtain ⟨q, hq, rfl⟩ := List.mem_map.1 hp
  exact mul_nonneg hc (himg q hq)

theorem augmentResample_ok (poissonLib : ℕ → Image → List Image) (fits : Image)
    (n : ℕ) (hfits : imageNonneg fits)
    (hpois : ∀ d ∈ poissonLib n (scaleImage 30 fits), imageNonneg d) :
    augmentResample poissonLib fits n =
      .ok ⟨sumImages (scaleImage 30 fits) (poissonLib n (scaleImage 30 fits)), 0,
        "S" ++ toString n⟩ ∧
    imageNonneg (sumImages (scaleImage 30 fits)
      (poissonLib n (scaleImage 30 fits))) := by
  constructor
  · unfold augmentResample
    rw [if_pos (imageNonnegB_eq_true.2 hfits)]
  · exact sumImages_nonneg _ _ hpois

theorem px_nonneg {img : Image} (himg : imageNonneg img) (k l : ℕ) :
    0 ≤ px img k l := by
  unfold px
  cases hk : img[k]? with
  | none => simp
  | some row =>
    cases hl : row[l]? with
    | none => simp [hl]
    | some p =>
      simp only [Option.getD_some, hl]
      exact himg p (List.mem_flatten.2 ⟨row, List.getElem?_mem hk, List.getElem?_mem hl⟩)

theorem gaussianBlur_nonneg (w : ℕ → ℕ → ℕ → ℕ → ℚ)
    (hw : ∀ i j k l, 0 ≤ w i j k l) {img : Image} (himg : imageNonneg img) :
    imageNonneg (gaussianBlur w img) := by
  intro p hp
  obtain ⟨row, hrow, hprow⟩ := List.mem_flatten.1 hp
  unfold gaussianBlur at hrow
  obtain ⟨i, -, rfl⟩ := List.mem_map.1 hrow
  obtain ⟨j, -, rfl⟩ := List.mem_map.1 hprow
  apply List.sum_nonneg
  intro x hx
  obtain ⟨k, -, rfl⟩ := List.mem_map.1 hx
  apply List.sum_nonneg
  intro y hy
  obtain ⟨l, -, rfl⟩ := List.mem_map.1 hy
  exact mul_nonneg (hw i j k l) (px_nonneg himg k l)

theorem applyStep_delta (rotateLib : Image → ℕ → Image)
    (poissonLib : ℕ → Image → List Image) (gaussLib : Image → ℚ → Image)
    (img : Image) (s : AugStep) (ar : AugmentResult)
    (h : applyStep rotateLib poissonLib gaussLib img s = .ok ar) :
    ar.angle_delta = stepDelta s := by
  cases s with
  | rotate a =>
    simp only [applyStep] at h
    injection h with h
    rw [← h]
    rfl
  | resample n =>
    simp only [applyStep] at h
    unfold augmentResample at h
    split at h
    · injection h with h
      rw [← h]
      rfl
    · exact Except.noConfusion h
  | blur c =>
    simp only [applyStep] at h
    injection h with h
    rw [← h]
    rfl

theorem chainAugment_delta_some (rotateLib : Image → ℕ → Image)
    (poissonLib : ℕ → Image → List Image) (gaussLib : Image → ℚ → Image) :
    ∀ (steps : List AugStep) (image : Image) (ar : AugmentResult),
      ar.angle_delta < 180 →
      ∀ ar', chainAugment rotateLib poissonLib gaussLib image (some ar) steps =
          .ok (some ar') →
        ar'.angle_delta = (ar.angle_delta + rotateSum steps) % 180 := by
  intro steps
  induction steps with
  | nil =>
    intro image ar hlt ar' h
    simp only [chainAugment] at h
    injection h with h
    injection h with h
    rw [← h]
    show ar.angle_delta = (ar.angle_delta + (([] : List AugStep).map stepDelta).sum) % 180
    rw [List.map_nil, List.sum_nil, Nat.add_zero, Nat.mod_eq_of_lt hlt]
  | cons s rest ih =>
    intro image ar hlt ar' h
    simp only [chainAugment] at h
    cases happ : applyStep rotateLib poissonLib gaussLib ar.result_image s with
    | error e => rw [happ] at h; exact Except.noConfusion h
    | ok ar2 =>
      rw [happ] at h
      have hd := applyStep_delta rotateLib poissonLib gaussLib _ s ar2 happ
      have hlt2 : (ar.merge ar2).angle_delta < 180 := Nat.mod_lt _ (by norm_num)
      have hrec := ih image (ar.merge ar2) hlt2 ar' h
      rw [hrec]
      show ((ar.angle_delta + ar2.angle_delta) % 180 + rotateSum rest) % 180 =
        (ar.angle_delta + rotateSum (s :: rest)) % 180
      rw [hd, Nat.mod_add_mod,
        show rotateSum (s :: rest) = stepDelta s + rotateSum rest from by
          unfold rotateSum; rw [List.map_cons, List.sum_cons],
        Nat.add_assoc]

/-- C4: for every composition applied by `random_augment` (1–3 distinct
transforms, rotate angles drawn from `[0,180)`, chained with
`AugmentResult.merge`), the final `angle_delta` is the sum of the applied
rotate angles taken mod 180; a composition of a single rotate by `a`
yields exactly `a`, and resample/blur contribute 0. -/
theorem random_augment_delta_sum_mod (rotateLib : Image → ℕ → Image)
    (poissonLib : ℕ → Image → List Image) (gaussLib : Image → ℚ → Image)
    (image : Image) (steps : List AugStep)
    (hlen1 : 1 ≤ steps.length) (hlen3 : steps.length ≤ 3)
    (hdistinct : (steps.map AugStep.kind).Nodup)
    (hangles : ∀ a : ℕ, AugStep.rotate a ∈ steps → a < 180) :
    (∀ ar, chainAugment rotateLib poissonLib gaussLib image none steps =
        .ok (some ar) → ar.angle_delta = rotateSum steps % 180) ∧
    (∀ (a : ℕ) (ar : AugmentResult), steps = [AugStep.rotate a] →
      chainAugment rotateLib poissonLib gaussLib image none steps =
        .ok (some ar) → ar.angle_delta = a) := by
  have hmain : ∀ ar, chainAugment rotateLib poissonLib gaussLib image none steps =
      .ok (some ar) → ar.angle_delta = rotateSum steps % 180 := by
    intro ar h
    cases steps with
    | nil => simp at hlen1
    | cons s rest =>
      simp only [chainAugment] at h
      cases happ : applyStep rotateLib poissonLib gaussLib image s with
      | error e => rw [happ] at h; exact Except.noConfusion h
      | ok ar1 =>
        rw [happ] at h
        have hd := applyStep_delta rotateLib poissonLib gaussLib image s ar1 happ
        have hlt : ar1.angle_delta < 180 := by
          rw [hd]
          cases s with
          | rotate a => exact hangles a (List.mem_cons_self _ _)
          | resample n => norm_num [stepDelta]
          | blur c => norm_num [stepDelta]
        have hrec := chainAugment_delta_some rotateLib poissonLib gaussLib rest
          image ar1 hlt ar h
        rw [hrec, hd,
          show rotateSum (s :: rest) = stepDelta s + rotateSum rest from by
            unfold rotateSum; rw [List.map_cons, List.sum_cons]]
  refine ⟨hmain, ?_⟩
  intro a ar hsteps h
  subst hsteps
  rw [hmain ar h]
  have ha : a < 180 := hangles a (List.mem_cons_self _ _)
  rw [show rotateSum [AugStep.rotate a] = a from by
    unfold rotateSum; rw [List.map_cons, List.map_nil, List.sum_cons, List.sum_nil];
    rfl]
  exact Nat.mod_eq_of_lt ha

/-- Witness for C4: a rotate-by-37 followed by a blur yields delta
`(37 + 0) % 180 = 37`. -/
theorem random_augment_delta_sum_mod_witness :
    (AugmentResult.mk [[(1 : ℚ)]] 37
      (("R" ++ toString 37) ++ "_" ++ ("B" ++ toString (1 : ℚ)))).angle_delta =
      rotateSum [AugStep.rotate 37, AugStep.blur 1] % 180 := by
  have hang : ∀ a : ℕ, AugStep.rotate a ∈ [AugStep.rotate 37, AugStep.blur 1] →
      a < 180 := by
    intro a ha
    rcases List.mem_cons.1 ha with h | h
    · cases h; norm_num
    · rcases List.mem_cons.1 h with h | h
      · exact AugStep.noConfusion h
      · exact absurd h (List.not_mem_nil _)
  have h := random_augment_delta_sum_mod (fun img _ => img) (fun _ _ => [])
    (fun img _ => img) [[(1 : ℚ)]] [AugStep.rotate 37, AugStep.blur 1]
    (by decide) (by decide) (by decide) hang
  exact h.1 _ rfl

theorem applyStep_nonneg (rotateLib : Image → ℕ → Image)
    (poissonLib : ℕ → Image → List Image) (w : ℚ → ℕ → ℕ → ℕ → ℕ → ℚ)
    (hpois : ∀ (n : ℕ) (im : Image), ∀ d ∈ poissonLib n im, imageNonneg d)
    (hw : ∀ c i j k l, 0 ≤ w c i j k l) (img : Image) (himg : imageNonneg img)
    (s : AugStep) :
    ∃ ar, applyStep rotateLib poissonLib (fun im c => gaussianBlur (w c) im)
        img s = .ok ar ∧ imageNonneg ar.result_image := by
  cases s with
  | rotate a => exact ⟨_, rfl, augmentRotate_nonneg rotateLib img a⟩
  | resample n =>
    obtain ⟨heq, hnn⟩ := augmentResample_ok poissonLib img n himg (hpois n _)
    exact ⟨_, heq, hnn⟩
  | blur c => exact ⟨_, rfl, gaussianBlur_nonneg (w c) (hw c) himg⟩

theorem chainAugment_nonneg (rotateLib : Image → ℕ → Image)
    (poissonLib : ℕ → Image → List Image) (w : ℚ → ℕ → ℕ → ℕ → ℕ → ℚ)
    (hpois : ∀ (n : ℕ) (im : Image), ∀ d ∈ poissonLib n im, imageNonneg d)
    (hw : ∀ c i j k l, 0 ≤ w c i j k l) :
    ∀ (steps : List AugStep) (image : Image) (acc : Option AugmentResult),
      imageNonneg image →
      (∀ ar0, acc = some ar0 → imageNonneg ar0.result_image) →
      ∃ res, chainAugment rotateLib poissonLib
          (fun im c => gaussianBlur (w c) im) image acc steps = .ok res ∧
        ∀ ar, res = some ar → imageNonneg ar.result_image := by
  intro steps
  induction steps with
  | nil =>
    intro image acc himg hacc
    exact ⟨acc, by simp only [chainAugment], hacc⟩
  | cons s rest ih =>
    intro image acc himg hacc
    cases acc with
    | none =>
      obtain ⟨ar, happ, hnn⟩ := applyStep_nonneg rotateLib poissonLib w hpois hw
        image himg s
      obtain ⟨res, hres, hr⟩ := ih image (some ar) himg (fun ar0 h0 => by
        injection h0 with h0
        rw [← h0]
        exact hnn)
      refine ⟨res, ?_, hr⟩
      simp only [chainAugment, happ]
      exact hres
    | some ar0 =>
      have himg0 : imageNonneg ar0.result_image := hacc ar0 rfl
      obtain ⟨ar2, happ, hnn⟩ := applyStep_nonneg rotateLib poissonLib w hpois hw
        ar0.result_image himg0 s
      obtain ⟨res, hres, hr⟩ := ih image (some (ar0.merge ar2)) himg (fun ar1 h1 => by
        injection h1 with h1
        rw [← h1]
        exact hnn)
      refine ⟨res, ?_, hr⟩
      simp only [chainAugment, happ]
      exact hres

/-- C10: every atomic augmentation preserves element-wise non-negativity
(rotate by its re-floor step regardless of the interpolation, resample as
a sum of non-negative Poisson draws, blur as a non-negative-kernel
weighted sum), so a chain built by `random_augment` from a non-negative
image never trips the resample assertion (no step errors) and produces a
non-negative result image. -/
theorem augment_chain_preserves_nonneg (rotateLib : Image → ℕ → Image)
    (poissonLib : ℕ → Image → List Image) (w : ℚ → ℕ → ℕ → ℕ → ℕ → ℚ)
    (hpois : ∀ (n : ℕ) (im : Image), ∀ d ∈ poissonLib n im, imageNonneg d)
    (hw : ∀ c i j k l, 0 ≤ w c i j k l)
    (image : Image) (himg : imageNonneg image) (steps : List AugStep) :
    (∃ res, chainAugment rotateLib poissonLib
        (fun im c => gaussianBlur (w c) im) image none steps = .ok res) ∧
    (∀ ar, chainAugment rotateLib poissonLib
        (fun im c => gaussianBlur (w c) im) image none steps = .ok (some ar) →
      imageNonneg ar.result_image) := by
  obtain ⟨res, hres, hr⟩ := chainAugment_nonneg rotateLib poissonLib w hpois hw
    steps image none himg (fun ar0 h0 => Option.noConfusion h0)
  refine ⟨⟨res, hres⟩, ?_⟩
  intro ar har
  rw [har] at hres
  injection hres with hres
  exact hr ar hres.symm

/-- Witness for C10: a rotate-only chain on `[[1]]` succeeds (no assertion
fires) and its result image is non-negative. -/
theorem augment_chain_preserves_nonneg_witness :
    chainAugment (fun img _ => img) (fun _ _ => [])
        (fun im c => gaussianBlur ((fun _ _ _ _ _ => (0 : ℚ)) c) im)
        [[(1 : ℚ)]] none [AugStep.rotate 37] ≠
      Except.error "Fits data must be non-negative" ∧
    imageNonneg [[(1 : ℚ)]] := by
  have himg1 : imageNonneg [[(1 : ℚ)]] := by
    intro p hp
    rcases List.mem_singleton.1 hp with rfl
    norm_num
  have h := augment_chain_preserves_nonneg (fun img _ => img) (fun _ _ => [])
    (fun _ _ _ _ _ => (0 : ℚ))
    (fun n im d hd => absurd hd (List.not_mem_nil d))
    (fun c i j k l => le_refl 0)
    [[(1 : ℚ)]] himg1 [AugStep.rotate 37]
  constructor
  · obtain ⟨res, hres⟩ := h.1
    rw [hres]
    intro hc
    exact Except.noConfusion hc
  · exact h.2 ⟨[[(1 : ℚ)]], 37, "R" ++ toString 37⟩ rfl

/-! ## Theorems for the Radon transformer guard -/

/-- C9: `transform` raises exactly on non-square images: unequal
dimensions raise the squareness error; equal dimensions return a sinogram
(no exception) with 40 rows and `fineness` columns (181 at the default
fineness). -/
theorem transform_raises_iff_not_square (proj : ℕ → Image → List ℚ)
    (raw_image : Image) (fineness : ℕ) :
    (raw_image.length ≠ shapeCols raw_image →
      transform proj raw_image fineness = .error "The image must be a square") ∧
    (raw_image.length = shapeCols raw_image →
      ∃ s, transform proj raw_image fineness = .ok s ∧
        s.length = 40 ∧ ∀ r ∈ s, r.length = fineness) := by
  constructor
  · intro h
    rw [transform, if_pos h]
  · intro h
    refine ⟨(List.range 40).map (fun r =>
      (List.range fineness).map (fun i =>
        (proj i (apply_mask raw_image)).getD r 0)), ?_, ?_, ?_⟩
    · rw [transform, if_neg (fun hc => hc h)]
    · rw [List.length_map, List.length_range]
    · intro r hr
      obtain ⟨i, -, rfl⟩ := List.mem_map.1 hr
      rw [List.length_map, List.length_range]

/-- Witness for C9: a 1×3 image raises, a 2×2 image does not. -/
theorem transform_raises_iff_not_square_witness :
    transform (fun _ _ => List.replicate 40 (0 : ℚ)) [[1, 2, 3]] 181 =
      .error "The image must be a square" ∧
    transform (fun _ _ => List.replicate 40 (0 : ℚ)) [[1, 2], [3, 4]] 181 ≠
      .error "The image must be a square" := by
  constructor
  · exact (transform_raises_iff_not_square
      (fun _ _ => List.replicate 40 (0 : ℚ)) [[1, 2, 3]] 181).1 (by decide)
  · obtain ⟨s, hs, -, -⟩ := (transform_raises_iff_not_square
      (fun _ _ => List.replicate 40 (0 : ℚ)) [[1, 2], [3, 4]] 181).2 rfl
    rw [hs]
    intro hc
    exact Except.noConfusion hc

end RadonServices
